import Mathlib

/-!
Verification of the zap/zappy partitioned-array core against its
natural-language specification.

The development shallowly embeds the Python sources:

* `src/zappy/executor/dag.py` — the lazy evaluation DAG (`Input`, `LazyVal`,
  `DAG.add_input`, `DAG.compute`);
* `src/zap/spark/array.py` — the Spark-backed distributed array
  (`ndarray_rdd`): repartitioning, reductions, binary-ufunc dispatch,
  row/column subsetting.

Numeric array elements are modelled as rationals (`ℚ`), a 2-D numpy array as
a list of rows, and an RDD of partitions as the ordered list of its
partitions (the backend executor contract is an order-preserving map, so the
collected result of a map is the list map).  Python assertion failures and
other aborts are modelled with `Option`/sentinel results.

Helper functions that this repository's sources call but whose defining file
is not part of the source tree (`zap.zarr_util.calculate_partition_boundaries`,
`zap.zarr_util.extract_partial_chunks`, and the `ndarray_dist` base-class
helpers `_copartition`, `_partition_row_counts`, `_new`, and the in-place
update contract) are modelled from the specification; each such definition
carries a doc comment starting with `Modelled from the spec:`.
-/

namespace Zap

/-! ## Lazy evaluation DAG (`src/zappy/executor/dag.py`) -/

/-- A DAG node: `Input(index)` selects the registered input with that index
from the per-partition tuple of input values; `LazyVal(func, inputs)` records
a transform function over the values of its ordered parent nodes.
The per-partition "tuple" of input values is modelled as a `List α`, and a
`LazyVal` function (applied in the source via `unpack_args`) as a function on
that list. -/
inductive Node (α : Type) where
  | input (index : Nat)
  | lazyVal (func : List α → α) (inputs : List (Node α))

mutual

/-- `Input.compute` / `LazyVal.compute` from `dag.py`: an `Input` selects
`input_values[self.index]` (out-of-range indexing, which raises in Python, is
`none`); a `LazyVal` recursively computes each parent on the same
`input_values` and applies its function to the list of results. -/
def Node.compute {α : Type} : Node α → List α → Option α
  | .input i, vals => vals.get? i
  | .lazyVal f ins, vals => (Node.computeList ins vals).map f

/-- Computes a list of parent nodes in order (`[input.compute(input_values)
for input in self.inputs]`). -/
def Node.computeList {α : Type} : List (Node α) → List α → Option (List α)
  | [], _ => some []
  | n :: ns, vals =>
      match n.compute vals, Node.computeList ns vals with
      | some v, some vs => some (v :: vs)
      | _, _ => none

end

/-- The DAG state from `dag.py`: the number of partitions fixed by the first
registered input (`0` before any input is registered) and the ordered list of
registered partitioned inputs.  Each partitioned input is the ordered list of
its partitions.  The executor is not part of the state: its contract is an
order-preserving `map`, modelled as `List.map` in `DAG.compute`. -/
structure DAG (α : Type) where
  num_partitions : Nat
  partitioned_inputs : List (List α)

/-- A freshly constructed DAG (`DAG.__init__`). -/
def DAG.empty (α : Type) : DAG α := ⟨0, []⟩

/-- `DAG.add_input`: asserts the input is non-empty; the first input fixes
`num_partitions`; further inputs must have the same number of partitions,
else the assertion fails (modelled as `none`) before the input is appended.
On success returns the updated DAG and an `Input` handle carrying only its
registration index. -/
def DAG.add_input {α : Type} (d : DAG α) (partitioned_input : List α) :
    Option (DAG α × Node α) :=
  if partitioned_input.length = 0 then
    none
  else if d.num_partitions = 0 then
    some (⟨partitioned_input.length, d.partitioned_inputs ++ [partitioned_input]⟩,
      Node.input d.partitioned_inputs.length)
  else if d.num_partitions = partitioned_input.length then
    some (⟨d.num_partitions, d.partitioned_inputs ++ [partitioned_input]⟩,
      Node.input d.partitioned_inputs.length)
  else
    none

/-- Python `zip(*lists)`: transposes a list of lists, truncating to the
shortest; `zip()` of no lists is empty. -/
def zipStar {α : Type} : List (List α) → List (List α)
  | [] => []
  | [l] => l.map (fun a => [a])
  | l :: l' :: ls => List.zipWith (fun a t => a :: t) l (zipStar (l' :: ls))

/-- `DAG.compute`: maps `output.compute` over the per-partition tuples of all
registered inputs (`zip(*self.partitioned_inputs)`), one result per
partition, in partition order (the executor's `map` is order-preserving). -/
def DAG.compute {α : Type} (d : DAG α) (output : Node α) : List (Option α) :=
  (zipStar d.partitioned_inputs).map (fun vals => output.compute vals)

/-! ## Distributed array data model (`src/zap/spark/array.py`) -/

/-- A numpy element type.  Only the types the claims need are represented:
`float64` is numpy's default numeric dtype (what `np.zeros` allocates when no
dtype is given). -/
inductive DType where
  | float64
  | int64
  | bool_
deriving DecidableEq, Repr

/-- A row of a 2-D numpy array, with elements modelled as rationals. -/
abbrev Row := List ℚ

/-- One physical partition: a numpy array held by the backend, carrying its
own element type and its rows. -/
structure NPArray where
  dtype : DType
  rows : List Row
deriving DecidableEq, Repr

/-- The `ndarray_rdd` handle: an ordered list of partitions (the RDD,
collected in partition order) plus the bookkeeping attributes `shape`,
`chunks`, `dtype` and `partition_row_counts` kept by the `ndarray_dist`
base class. -/
structure NdarrayRdd where
  rdd : List NPArray
  shape : Nat × Nat
  chunks : Nat × Nat
  dtype : DType
  partition_row_counts : List Nat
deriving DecidableEq, Repr

/-- `asndarray` / `_compute`: materializes the distributed array locally by
collecting the partitions in order and stacking their rows. -/
def NdarrayRdd.asndarray (a : NdarrayRdd) : List Row :=
  (a.rdd.map NPArray.rows).flatten

/-- Modelled from the spec: `ndarray_dist._copartition` (the Co-partition
Aligner of §4.2, absent from the source tree) cuts a materialized 1-D array
into consecutive slices matching each partition's row count, in partition
order.  The spec's `ShapeMismatchError` length check is a precondition here:
every use below supplies an array whose length equals the sum of the
counts. -/
def copartition {α : Type} (xs : List α) : List Nat → List (List α)
  | [] => []
  | n :: rest => xs.take n :: copartition (xs.drop n) rest

/-- Python `builtins.sum` of a boolean array: the number of `True` entries. -/
def countTrue (m : List Bool) : Nat := (m.filter id).length

/-- Modelled from the spec: `ndarray_dist._partition_row_counts` (absent from
the source tree) turns the co-partitioned boolean row subsets into the new
per-partition row counts — "partition row counts equal the per-partition
count of selected rows". -/
def partition_row_counts_of (subsets : List (List Bool)) : List Nat :=
  subsets.map countTrue

/-- numpy boolean row selection `x[mask, :]` on one partition: keeps the rows
whose mask entry is `true`, in order. -/
def selectRows (p : List Row) (m : List Bool) : List Row :=
  ((p.zip m).filter (fun q => q.2)).map (fun q => q.1)

/-- `ndarray_rdd._row_subset` for a boolean row mask: materializes the mask,
co-partitions it against the current layout, zips it with the partitions and
selects rows per partition; the new `partition_row_counts` are the
per-partition selected-row counts, and the new `shape` is their sum by the
original column count.  `chunks` and `dtype` are retained by `_new`. -/
def NdarrayRdd.row_subset (a : NdarrayRdd) (item : List Bool) : NdarrayRdd :=
  let partition_row_subsets := copartition item a.partition_row_counts
  let new_partition_row_counts := partition_row_counts_of partition_row_subsets
  let new_shape := (new_partition_row_counts.sum, a.shape.2)
  { rdd := (a.rdd.zip partition_row_subsets).map
      (fun p => ⟨p.1.dtype, selectRows p.1.rows p.2⟩),
    shape := new_shape,
    chunks := a.chunks,
    dtype := a.dtype,
    partition_row_counts := new_partition_row_counts }

/-- The result of an operation that may signal the `NotImplemented` sentinel
(returned, not raised, so a caller's dispatch can fall through). -/
inductive UResult (β : Type) where
  | ok (v : β)
  | notImplemented
deriving DecidableEq

/-- `ndarray_rdd._binary_ufunc_same_shape`: same partition layout → zip the
two RDDs and apply `func` per partition pair; different layout but the
right-hand operand has exactly one column → materialize it, co-partition it
against this array's layout and zip; otherwise return the `NotImplemented`
sentinel (no exception, no per-partition work).  `func` abstracts the numpy
binary ufunc applied to a pair of partitions. -/
def NdarrayRdd.binary_ufunc_same_shape (self other : NdarrayRdd)
    (func : NPArray → NPArray → NPArray) : UResult NdarrayRdd :=
  if self.partition_row_counts = other.partition_row_counts then
    .ok { self with
      rdd := (self.rdd.zip other.rdd).map (fun p => func p.1 p.2) }
  else if other.shape.2 = 1 then
    let partition_row_subsets := copartition other.asndarray self.partition_row_counts
    .ok { self with
      rdd := (self.rdd.zip partition_row_subsets).map
        (fun p => func p.1 ⟨other.dtype, p.2⟩) }
  else
    .notImplemented

/-- A column-selection array: a boolean mask over the columns or an integer
index array.  (The `np.newaxis` branch of `_column_subset` applies to 1-D
arrays and is outside the claims about column selection, so it is not
modelled.) -/
inductive ColSel where
  | bools (m : List Bool)
  | ints (idxs : List Nat)
deriving DecidableEq

/-- Python `builtins.sum(subset)` as `_column_subset` computes
`new_num_cols`: for a boolean mask the number of `True` entries, for an
integer index array the sum of the indices. -/
def ColSel.pysum : ColSel → Nat
  | .bools m => countTrue m
  | .ints idxs => idxs.sum

/-- The number of columns a selection actually selects (numpy semantics of
`x[:, subset]`): for a boolean mask the number of `True` entries, for an
integer index array its length. -/
def ColSel.numSelected : ColSel → Nat
  | .bools m => countTrue m
  | .ints idxs => idxs.length

/-- numpy column selection applied to one row. -/
def selectColsRow (r : Row) : ColSel → Row
  | .bools m => ((r.zip m).filter (fun q => q.2)).map (fun q => q.1)
  | .ints idxs => idxs.map (fun j => r.getD j 0)

/-- `ndarray_rdd._column_subset` (array branch): applies the same column
selection independently to every partition; the new shape and chunks use
`new_num_cols = builtins.sum(subset)`. -/
def NdarrayRdd.column_subset (a : NdarrayRdd) (item : ColSel) : NdarrayRdd :=
  let new_num_cols := item.pysum
  let new_shape := (a.shape.1, new_num_cols)
  let new_chunks := (a.chunks.1, new_num_cols)
  { a with
    rdd := a.rdd.map (fun p => ⟨p.dtype, p.rows.map (fun r => selectColsRow r item)⟩),
    shape := new_shape,
    chunks := new_chunks }

/-! ## Reductions (`ndarray_rdd.mean`) -/

/-- Elementwise addition of two vectors (`np.sum(..., axis=0)` accumulation). -/
def vecAdd (u v : Row) : Row := List.zipWith (· + ·) u v

/-- `np.sum(x, axis=0)` of a partition whose rows have width `w`: the vector
of column sums. -/
def colSum (w : Nat) (p : List Row) : Row :=
  p.foldl vecAdd (List.replicate w 0)

/-- The mean of one row (`np.mean(x, axis=1)` per row). -/
def rowMean (r : Row) : ℚ := r.sum / (r.length : ℚ)

/-- A 1-D distributed array, as produced by the reductions (`_new` with a
1-element shape tuple). -/
structure Ndarray1D where
  rdd : List Row
  shape : Nat
  chunks : Nat
  partition_row_counts : List Nat
deriving DecidableEq, Repr

/-- `ndarray_rdd.mean`: for `axis=0` collects `(row_count, column_sums)` per
partition, sums the counts and the per-partition column sums, divides, and
returns a single-partition 1-D array; for `axis=1` maps `np.mean(·, axis=1)`
per partition (`_calc_func_axis_rowwise`, which keeps the original
`partition_row_counts`); any other axis (including `None`) returns the
`NotImplemented` sentinel. -/
def NdarrayRdd.mean (a : NdarrayRdd) (axis : Option Int) : UResult Ndarray1D :=
  if axis = some 0 then
    let result := a.rdd.map (fun x => (x.rows.length, colSum a.shape.2 x.rows))
    let total_count : ℚ := ((result.map (fun r => r.1)).sum : Nat)
    let m := ((result.map (fun r => r.2)).foldl vecAdd
        (List.replicate a.shape.2 0)).map (fun q => q / total_count)
    .ok { rdd := [m], shape := m.length, chunks := m.length,
          partition_row_counts := [m.length] }
  else if axis = some 1 then
    .ok { rdd := a.rdd.map (fun x => x.rows.map rowMean),
          shape := a.shape.1, chunks := a.chunks.1,
          partition_row_counts := a.partition_row_counts }
  else
    .notImplemented

/-! ## In-place update contract (§5 of the spec; `ndarray_dist` base class) -/

/-- The element conversion performed by `astype`: `float64` keeps the value,
`int64` truncates toward zero (C-style cast), `bool_` tests non-zero. -/
def dtypeCast : DType → ℚ → ℚ
  | .float64, x => x
  | .int64, x => ((x.num / (x.den : Int) : Int) : ℚ)
  | .bool_, x => if x = 0 then 0 else 1

/-- Modelled from the spec: a Python-level handle to a distributed array.
`oid` is the object identity (`id(...)`); the in-place operations of the
`ndarray_dist` base class (absent from the source tree) "preserve the calling
object's identity (same handle reused, internal partition reference
replaced)". -/
structure ZapHandle where
  oid : Nat
  arr : NdarrayRdd

/-- Modelled from the spec: `arr += v` — the same handle is reused and its
internal partition reference is replaced by the partitions with `v` added to
every element. -/
def ZapHandle.iadd (h : ZapHandle) (v : ℚ) : ZapHandle :=
  { oid := h.oid,
    arr := { h.arr with
      rdd := h.arr.rdd.map (fun p => ⟨p.dtype, p.rows.map (List.map (· + v))⟩) } }

/-- Modelled from the spec: `arr.astype(dtype, copy=False)` — the same handle
is reused; the internal partition reference is replaced by the cast
partitions and the recorded dtype is updated. -/
def ZapHandle.astype_inplace (h : ZapHandle) (dt : DType) : ZapHandle :=
  { oid := h.oid,
    arr := { h.arr with
      dtype := dt,
      rdd := h.arr.rdd.map (fun p => ⟨dt, p.rows.map (List.map (dtypeCast dt))⟩) } }

/-! ## Repartitioning (`ndarray_rdd._repartition_chunks` and the
`zap.zarr_util` partition geometry it calls) -/

/-- A boundary entry for one old partition:
`(new_chunk_index, start_offset, end_offset)` — the slice
`[start_offset, end_offset)` of new chunk `new_chunk_index` falls within this
old partition's row span. -/
abbrev BoundaryEntry := Nat × Nat × Nat

/-- Modelled from the spec (§4.1 algorithm): the boundary entries of one old
partition spanning global rows `[g0, g0 + rows)`, for new row-chunk size `c`:
a row at global offset `g` belongs to new chunk `g / c`, and one entry is
emitted per (old partition, new chunk) overlap, in increasing global order.
`fuel` bounds the recursion; each step consumes at least one row, so
`fuel = rows` suffices (see `chunkEntries`).  The `c = 0` guard is never hit
by callers (a chunk size is positive). -/
def chunkEntriesAux (c : Nat) : Nat → Nat → Nat → List BoundaryEntry
  | 0, _, _ => []
  | fuel + 1, g0, rows =>
    if rows = 0 ∨ c = 0 then []
    else
      (g0 / c, g0 % c, g0 % c + min rows (c - g0 % c)) ::
        chunkEntriesAux c fuel (g0 + min rows (c - g0 % c))
          (rows - min rows (c - g0 % c))

/-- The boundary entries of one old partition of `rows` rows starting at
global row offset `g0`, for new row-chunk size `c`. -/
def chunkEntries (c g0 rows : Nat) : List BoundaryEntry :=
  chunkEntriesAux c rows g0 rows

/-- Modelled from the spec: walk the old partitions in order, maintaining a
running global row offset, and emit each old partition's boundary entries. -/
def boundariesFrom (c : Nat) : Nat → List Nat → List (List BoundaryEntry)
  | _, [] => []
  | g0, n :: rest => chunkEntries c g0 n :: boundariesFrom c (g0 + n) rest

/-- Modelled from the spec:
`calculate_partition_boundaries(new_chunks, old_partition_row_counts)`
returns per-old-partition boundary entries, the total row count, and
`new_num_partitions = ceil(total_rows / c)`. -/
def calculate_partition_boundaries (chunks : Nat × Nat) (counts : List Nat) :
    List (List BoundaryEntry) × Nat × Nat :=
  (boundariesFrom chunks.1 0 counts, counts.sum,
    (counts.sum + chunks.1 - 1) / chunks.1)

/-- Modelled from the spec: `extract_partial_chunks` pairs each boundary
entry of an old partition with the corresponding row-slice of that
partition's array, keyed by destination new-chunk index.  The entries of one
old partition are in increasing global order, so the slices are consecutive:
each entry of span `end_offset - start_offset` consumes that many rows. -/
def extract_partial_chunks : List BoundaryEntry → List Row →
    List (Nat × ((Nat × Nat) × List Row))
  | [], _ => []
  | (j, s, e) :: rest, part =>
      (j, ((s, e), part.take (e - s))) :: extract_partial_chunks rest (part.drop (e - s))

/-- numpy slice assignment `arr[s:e] = rows` (with `e - s = rows.length` and
`e ≤ arr.length` at every call site below). -/
def writeSlice (a : List Row) (s e : Nat) (rows : List Row) : List Row :=
  a.take s ++ rows ++ a.drop e

/-- `writeSlice` in the well-formed case `e = s + rows.length`: overlay
`rows` on `base` starting at offset `s`. -/
def overlayAt (base : List Row) (s : Nat) (rows : List Row) : List Row :=
  base.take s ++ rows ++ base.drop (s + rows.length)

/-- `np.zeros((r, w))`: `r` rows of `w` zeros each — allocated with no dtype,
hence numpy's default `float64`. -/
def zerosRows (r w : Nat) : List Row :=
  List.replicate r (List.replicate w 0)

/-- `combine_partial_chunks` from `_repartition_chunks`: combines the
non-overlapping parts of one new chunk into a single chunk.  The frame is a
fresh `np.zeros` array — of `total_rows % c` rows for the final chunk when
`total_rows % c != 0`, else of `c` rows — with dtype `float64` (no dtype is
passed to `np.zeros`); each part is then written over its slice. -/
def combine_partial_chunks (chunks : Nat × Nat) (total_rows new_num : Nat)
    (pair : Nat × List ((Nat × Nat) × List Row)) : NPArray :=
  let arr0 :=
    if pair.1 = new_num - 1 ∧ total_rows % chunks.1 ≠ 0 then
      zerosRows (total_rows % chunks.1) chunks.2
    else
      zerosRows chunks.1 chunks.2
  ⟨DType.float64,
    pair.2.foldl (fun acc pr => writeSlice acc pr.1.1 pr.1.2 pr.2) arr0⟩

/-- The new `partition_row_counts` computed at the end of
`_repartition_chunks`: `[c] * (shape[0] // c)`, plus `shape[0] % c` when
non-zero. -/
def chunkCounts (c rows0 : Nat) : List Nat :=
  List.replicate (rows0 / c) c ++ (if rows0 % c ≠ 0 then [rows0 % c] else [])

/-- `ndarray_rdd._repartition_chunks`: computes the partition boundaries,
extracts the partial chunks of every old partition (`parallelize(ranges)
.zip(self.rdd).mapPartitions(extract)`), regroups them by destination
new-chunk index (`groupByKey(new_num_partitions, identity_partition_func)` —
key `j` lands in output partition `j`; a partition whose key never occurs is
empty and contributes no element), and reassembles each new chunk
(`map(combine_partial_chunks)`).  `_new` keeps `shape` and `dtype` and
installs the new `chunks` and `partition_row_counts`. -/
def NdarrayRdd.repartition_chunks (a : NdarrayRdd) (chunks : Nat × Nat) :
    NdarrayRdd :=
  let pbr := calculate_partition_boundaries chunks a.partition_row_counts
  let pieces := (pbr.1.zip (a.rdd.map NPArray.rows)).flatMap
    (fun pr => extract_partial_chunks pr.1 pr.2)
  let grouped := (List.range pbr.2.2).flatMap (fun j =>
    let vals := (pieces.filter (fun p => p.1 = j)).map (fun p => p.2)
    if vals = [] then []
    else [combine_partial_chunks chunks pbr.2.1 pbr.2.2 (j, vals)])
  { rdd := grouped,
    shape := a.shape,
    chunks := chunks,
    dtype := a.dtype,
    partition_row_counts := chunkCounts chunks.1 a.shape.1 }

/-- A piece in flight during repartitioning: destination chunk index, the
`(start_offset, end_offset)` slice of the destination chunk, and the rows. -/
abbrev Piece := Nat × ((Nat × Nat) × List Row)

/-- The rows carried by a list of pieces, concatenated in order. -/
def joinRows (ps : List Piece) : List Row :=
  (ps.map (fun p => p.2.2)).flatten

/-- The well-formedness of a piece stream produced by the geometry: starting
at global row `g`, the pieces tile the global row range contiguously; each
piece lies within a single destination chunk of size `c`, its destination
index is `g / c`, its offsets are `(g % c, g % c + length)`, and it is
non-empty. -/
def ChainFrom (c : Nat) : Nat → List Piece → Prop
  | _, [] => True
  | g, (j, (s, e), rs) :: ps =>
      j = g / c ∧ s = g % c ∧ e = s + rs.length ∧ rs ≠ [] ∧ e ≤ c ∧
        ChainFrom c (g + rs.length) ps

/-- The 3×5 scenario array of the spec's §8, chunked at `(2, 5)`:
partitions hold rows 0–1 and row 2, `partition_row_counts = [2, 1]`. -/
def scenarioArr : NdarrayRdd :=
  { rdd := [⟨.float64, [[0, 1, 0, 3, 0], [2, 0, 3, 4, 5]]⟩,
            ⟨.float64, [[4, 0, 0, 6, 7]]⟩],
    shape := (3, 5),
    chunks := (2, 5),
    dtype := .float64,
    partition_row_counts := [2, 1] }

/-! ## Theorems: the DAG claims -/

theorem zipStar_length {α : Type} (N : Nat) :
    ∀ ls : List (List α), ls ≠ [] → (∀ l ∈ ls, l.length = N) →
      (zipStar ls).length = N := by
  intro ls
  induction ls with
  | nil => intro h; exact absurd rfl h
  | cons l ls ih =>
      intro _ hall
      cases ls with
      | nil =>
          simp [zipStar, hall l (by simp)]
      | cons l' ls' =>
          have h1 : l.length = N := hall l (by simp)
          have h2 : (zipStar (l' :: ls')).length = N := by
            refine ih (by simp) ?_
            intro x hx
            exact hall x (List.mem_cons_of_mem _ hx)
          simp [zipStar, List.length_zipWith, h1, h2]

theorem zipStar_get? {α : Type} (N : Nat) (a : α) :
    ∀ ls : List (List α), ls ≠ [] → (∀ l ∈ ls, l.length = N) →
      ∀ i, i < N →
        (zipStar ls).get? i = some (ls.map (fun l => l.getD i a)) := by
  intro ls
  induction ls with
  | nil => intro h; exact absurd rfl h
  | cons l ls ih =>
      intro _ hall i hi
      have h1 : l.length = N := hall l (by simp)
      cases ls with
      | nil =>
          have hli : i < l.length := h1 ▸ hi
          simp [zipStar, List.get?_eq_getElem?, List.getElem?_map,
            List.getElem?_eq_getElem hli, List.getD, List.get?_eq_getElem?]
      | cons l' ls' =>
          have h2 := ih (by simp) (fun x hx => hall x (List.mem_cons_of_mem _ hx)) i hi
          have hli : i < l.length := h1 ▸ hi
          rw [List.get?_eq_getElem?] at h2 ⊢
          rw [zipStar, List.getElem?_zipWith, List.getElem?_eq_getElem hli, h2]
          simp [List.getD, List.get?_eq_getElem?, List.getElem?_eq_getElem hli]

/-- C1: For every DAG whose registered inputs each have `N` partitions,
`compute(output_node)` returns exactly `N` results, and the `i`-th result
equals evaluating the recorded transform chain of the output node directly on
the tuple of the `i`-th partitions of all registered inputs (`Input` nodes
select their registered index from the tuple; `LazyVal` nodes apply their
function to the recursively computed values of their ordered parents). -/
theorem dag_compute_partitionwise {α : Type} (d : DAG α) (out : Node α)
    (N : Nat) (a : α)
    (hne : d.partitioned_inputs ≠ [])
    (hlen : ∀ l ∈ d.partitioned_inputs, l.length = N) :
    (d.compute out).length = N ∧
    ∀ i, i < N →
      (d.compute out).get? i =
        some (out.compute (d.partitioned_inputs.map (fun l => l.getD i a))) := by
  constructor
  · simp [DAG.compute, zipStar_length N _ hne hlen]
  · intro i hi
    simp only [DAG.compute, List.get?_eq_getElem?, List.getElem?_map]
    have h := zipStar_get? N a d.partitioned_inputs hne hlen i hi
    rw [List.get?_eq_getElem?] at h
    rw [h]
    rfl

theorem dag_compute_partitionwise_witness :
    ((DAG.mk 2 [[(1 : Int), 2], [10, 20]]).compute
        (Node.lazyVal (fun l => l.foldl (· + ·) 0) [Node.input 0, Node.input 1])).length = 2 ∧
    ((DAG.mk 2 [[(1 : Int), 2], [10, 20]]).compute
        (Node.lazyVal (fun l => l.foldl (· + ·) 0) [Node.input 0, Node.input 1])).get? 0 =
      some (some 11) ∧
    ((DAG.mk 2 [[(1 : Int), 2], [10, 20]]).compute
        (Node.lazyVal (fun l => l.foldl (· + ·) 0) [Node.input 0, Node.input 1])).get? 1 =
      some (some 22) := by
  have h := dag_compute_partitionwise (DAG.mk 2 [[(1 : Int), 2], [10, 20]])
    (Node.lazyVal (fun l => l.foldl (· + ·) 0) [Node.input 0, Node.input 1]) 2 0
    (by simp) (by intro l hl; simp at hl; rcases hl with h | h <;> simp [h])
  refine ⟨h.1, ?_, ?_⟩
  · rw [h.2 0 (by norm_num)]; rfl
  · rw [h.2 1 (by norm_num)]; rfl

/-- C4: Registering an input whose partition count differs from that of the
first registered input fails with an assertion failure inside `add_input`
(modelled: `add_input` returns `none`), so no updated DAG exists — the input
is not appended to `partitioned_inputs` and nothing is ever dispatched to the
backend executor (`add_input` never touches the executor; only
`DAG.compute` does).  The hypotheses record the constructor invariants of a
DAG that has at least one registered input: `num_partitions` equals the
first registered input's partition count and is positive. -/
theorem add_input_mismatch_fails {α : Type} (d : DAG α) (pin : List α)
    (hne : d.partitioned_inputs ≠ [])
    (hinv : d.num_partitions = (d.partitioned_inputs.headD []).length)
    (hpos : 0 < d.num_partitions)
    (hmis : pin.length ≠ d.num_partitions) :
    d.add_input pin = none := by
  unfold DAG.add_input
  rcases Nat.eq_zero_or_pos pin.length with h0 | h0
  · simp [h0]
  · rw [if_neg (by omega), if_neg (by omega), if_neg (by omega)]

theorem add_input_mismatch_fails_witness :
    (DAG.mk 2 [[(1 : Int), 2]]).add_input [5, 6, 7] = none := by
  exact add_input_mismatch_fails _ _ (by simp) (by simp) (by simp) (by simp)

/-! ## Theorems: binary-ufunc dispatch -/

/-- C6: A binary ufunc applied to two distributed arrays whose
`partition_row_counts` differ, where the right-hand operand does not have
exactly one column, returns the `NotImplemented` sentinel: no exception is
raised (the result is an ordinary return value) and no per-partition work is
dispatched (the sentinel branch builds no RDD). -/
theorem binary_ufunc_mismatch_not_implemented (self other : NdarrayRdd)
    (func : NPArray → NPArray → NPArray)
    (hm : self.partition_row_counts ≠ other.partition_row_counts)
    (hc : other.shape.2 ≠ 1) :
    self.binary_ufunc_same_shape other func = UResult.notImplemented := by
  unfold NdarrayRdd.binary_ufunc_same_shape
  rw [if_neg hm, if_neg hc]

theorem binary_ufunc_mismatch_not_implemented_witness :
    scenarioArr.binary_ufunc_same_shape
      { scenarioArr with partition_row_counts := [1, 2] }
      (fun p _ => p) = UResult.notImplemented :=
  binary_ufunc_mismatch_not_implemented _ _ _ (by decide) (by decide)

/-! ## Theorems: in-place update contract -/

/-- C9: The in-place operations `arr += v` and `arr.astype(dtype,
copy=False)` leave the object identity of the handle unchanged (the same
handle is reused with its internal partition reference replaced), while
subsequent materialization reflects the updated values — so external aliases
of the handle observe the mutation. -/
theorem inplace_identity_preserved (h : ZapHandle) (v : ℚ) (dt : DType) :
    (h.iadd v).oid = h.oid ∧
    (h.iadd v).arr.asndarray = h.arr.asndarray.map (List.map (· + v)) ∧
    (h.astype_inplace dt).oid = h.oid ∧
    (h.astype_inplace dt).arr.asndarray =
      h.arr.asndarray.map (List.map (dtypeCast dt)) ∧
    (h.astype_inplace dt).arr.dtype = dt := by
  refine ⟨rfl, ?_, rfl, ?_, rfl⟩ <;>
    simp [ZapHandle.iadd, ZapHandle.astype_inplace, NdarrayRdd.asndarray,
      List.map_flatten, List.map_map, Function.comp_def]

/-! ## Theorems: column subsetting -/

/-- C7 (evaluation at the failing input): on the 3×5 scenario array the
boolean column mask `[T,F,T,F,T]` behaves as the claim states — shape
`(3,3)`, values `[[0,0,0],[2,3,5],[4,0,7]]`, row partitioning unchanged —
but for the integer column selection `[1, 3]` the code sets
`new_num_cols = builtins.sum(subset) = 4` (the sum of the indices), while
numpy selects 2 columns and the materialized rows indeed have 2 entries
each: the reported shape `(3, 4)` contradicts the actual data (and the
repository's own `test_subset_cols_int`, which asserts the numpy shape). -/
theorem column_subset_int_shape_bug :
    (scenarioArr.column_subset (ColSel.bools [true, false, true, false, true])).shape
        = (3, 3) ∧
    (scenarioArr.column_subset (ColSel.bools [true, false, true, false, true])).asndarray
        = [[0, 0, 0], [2, 3, 5], [4, 0, 7]] ∧
    (scenarioArr.column_subset (ColSel.bools [true, false, true, false, true])).partition_row_counts
        = scenarioArr.partition_row_counts ∧
    (scenarioArr.column_subset (ColSel.ints [1, 3])).shape = (3, 4) ∧
    (ColSel.ints [1, 3]).numSelected = 2 ∧
    (scenarioArr.column_subset (ColSel.ints [1, 3])).asndarray
        = [[1, 3], [0, 4], [0, 6]] := by
  refine ⟨rfl, by decide, rfl, rfl, rfl, by decide⟩

/-! ## Theorems: the mean reduction -/

theorem vecAdd_length (u v : Row) :
    (vecAdd u v).length = min u.length v.length :=
  List.length_zipWith _ _ _

theorem vecAdd_assoc (u v w : Row) :
    vecAdd (vecAdd u v) w = vecAdd u (vecAdd v w) := by
  induction u generalizing v w with
  | nil => simp [vecAdd]
  | cons a u ih =>
      cases v with
      | nil => simp [vecAdd]
      | cons b v =>
          cases w with
          | nil => simp [vecAdd]
          | cons c w =>
              have h := ih v w
              simp only [vecAdd] at h
              simp only [vecAdd, List.zipWith_cons_cons, add_assoc, h]

theorem vecAdd_zero_left (v : Row) (w : Nat) (h : v.length = w) :
    vecAdd (List.replicate w 0) v = v := by
  induction v generalizing w with
  | nil => subst h; simp [vecAdd]
  | cons a v ih =>
      subst h
      simp only [List.length_cons, List.replicate_succ, vecAdd,
        List.zipWith_cons_cons, zero_add]
      exact congrArg _ (ih v.length rfl)

theorem vecAdd_zero_right (v : Row) (w : Nat) (h : v.length = w) :
    vecAdd v (List.replicate w 0) = v := by
  induction v generalizing w with
  | nil => subst h; simp [vecAdd]
  | cons a v ih =>
      subst h
      simp only [List.length_cons, List.replicate_succ, vecAdd,
        List.zipWith_cons_cons, add_zero]
      exact congrArg _ (ih v.length rfl)

theorem foldl_vecAdd_length (w : Nat) :
    ∀ (p : List Row) (acc : Row), acc.length = w → (∀ r ∈ p, r.length = w) →
      (p.foldl vecAdd acc).length = w := by
  intro p
  induction p with
  | nil => intro acc ha _; simpa using ha
  | cons r p ih =>
      intro acc ha hall
      rw [List.foldl_cons]
      refine ih (vecAdd acc r) ?_ (fun x hx => hall x (by simp [hx]))
      rw [vecAdd_length, ha, hall r (by simp)]
      simp

theorem foldl_vecAdd_eq (w : Nat) :
    ∀ (p : List Row) (acc : Row), acc.length = w → (∀ r ∈ p, r.length = w) →
      p.foldl vecAdd acc = vecAdd acc (colSum w p) := by
  intro p
  induction p with
  | nil =>
      intro acc ha _
      simp [colSum, vecAdd_zero_right acc w ha]
  | cons r p ih =>
      intro acc ha hall
      have hr : r.length = w := hall r (by simp)
      have hmem : ∀ x ∈ p, x.length = w := fun x hx => hall x (by simp [hx])
      have hlen : (vecAdd acc r).length = w := by
        rw [vecAdd_length, ha, hr]; simp
      have hcons : colSum w (r :: p) = vecAdd r (colSum w p) := by
        show (r :: p).foldl vecAdd (List.replicate w 0) = _
        rw [List.foldl_cons, ih (vecAdd (List.replicate w 0) r)
          (by rw [vecAdd_length, List.length_replicate, hr]; simp) hmem,
          vecAdd_zero_left r w hr]
      rw [List.foldl_cons, ih (vecAdd acc r) hlen hmem, hcons, vecAdd_assoc]

theorem colSum_length (w : Nat) (p : List Row) (h : ∀ r ∈ p, r.length = w) :
    (colSum w p).length = w :=
  foldl_vecAdd_length w p (List.replicate w 0) (by simp) h

theorem colSum_cons (w : Nat) (r : Row) (p : List Row) (hr : r.length = w)
    (hp : ∀ x ∈ p, x.length = w) :
    colSum w (r :: p) = vecAdd r (colSum w p) := by
  show (r :: p).foldl vecAdd (List.replicate w 0) = _
  rw [List.foldl_cons, foldl_vecAdd_eq w p (vecAdd (List.replicate w 0) r)
    (by rw [vecAdd_length, List.length_replicate, hr]; simp) hp,
    vecAdd_zero_left r w hr]

theorem colSum_flatten (w : Nat) :
    ∀ parts : List (List Row), (∀ p ∈ parts, ∀ r ∈ p, r.length = w) →
      colSum w parts.flatten =
        (parts.map (colSum w)).foldl vecAdd (List.replicate w 0) := by
  intro parts
  induction parts with
  | nil => simp [colSum]
  | cons p parts ih =>
      intro hall
      have hp : ∀ r ∈ p, r.length = w := hall p (by simp)
      have hrest : ∀ q ∈ parts, ∀ r ∈ q, r.length = w :=
        fun q hq => hall q (by simp [hq])
      have hflat : ∀ r ∈ parts.flatten, r.length = w := by
        intro r hr
        rcases List.mem_flatten.mp hr with ⟨q, hq, hrq⟩
        exact hrest q hq r hrq
      have hsums : ∀ s ∈ parts.map (colSum w), s.length = w := by
        intro s hs
        rcases List.mem_map.mp hs with ⟨q, hq, rfl⟩
        exact colSum_length w q (hrest q hq)
      calc colSum w (p :: parts).flatten
      _ = (p ++ parts.flatten).foldl vecAdd (List.replicate w 0) := by
          simp [colSum]
      _ = parts.flatten.foldl vecAdd (colSum w p) := by
          rw [List.foldl_append]; rfl
      _ = vecAdd (colSum w p) (colSum w parts.flatten) :=
          foldl_vecAdd_eq w _ _ (colSum_length w p hp) hflat
      _ = vecAdd (colSum w p) (colSum w (parts.map (colSum w))) := by
          rw [ih hrest]; rfl
      _ = colSum w (colSum w p :: parts.map (colSum w)) :=
          (colSum_cons w _ _ (colSum_length w p hp) hsums).symm
      _ = ((p :: parts).map (colSum w)).foldl vecAdd (List.replicate w 0) := by
          simp [colSum]

/-- C8: `mean(axis=0)` returns a single-partition 1-D array whose value is
the elementwise sum of the per-partition column sums divided by the total
row count — equal to the column sums of the whole materialized array divided
by its total number of rows, hence correct even when partition row counts
are unequal (it is not a naive mean of per-partition means).  For any axis
other than `0` or `1` (including `None`), `mean` returns the
`NotImplemented` sentinel. -/
theorem mean_axis0_correct (a : NdarrayRdd)
    (hw : ∀ p ∈ a.rdd, ∀ r ∈ p.rows, r.length = a.shape.2) :
    (a.mean (some 0) = UResult.ok
      { rdd := [(colSum a.shape.2 a.asndarray).map
          (fun q => q / ((a.asndarray.length : Nat) : ℚ))],
        shape := a.shape.2, chunks := a.shape.2,
        partition_row_counts := [a.shape.2] }) ∧
    (∀ ax : Option Int, ax ≠ some 0 → ax ≠ some 1 →
      a.mean ax = UResult.notImplemented) := by
  constructor
  · have hparts : ∀ p ∈ a.rdd.map NPArray.rows, ∀ r ∈ p, r.length = a.shape.2 := by
      intro p hp r hr
      rcases List.mem_map.mp hp with ⟨q, hq, rfl⟩
      exact hw q hq r hr
    have hfold : (a.rdd.map (fun x => colSum a.shape.2 x.rows)).foldl vecAdd
        (List.replicate a.shape.2 0) = colSum a.shape.2 a.asndarray := by
      rw [NdarrayRdd.asndarray, colSum_flatten a.shape.2 _ hparts, List.map_map]
      rfl
    have htot : (a.rdd.map (fun x => x.rows.length)).sum = a.asndarray.length := by
      rw [NdarrayRdd.asndarray, List.length_flatten, List.map_map]
      rfl
    have hmlen : (colSum a.shape.2 a.asndarray).length = a.shape.2 := by
      refine colSum_length _ _ ?_
      intro r hr
      rcases List.mem_flatten.mp hr with ⟨p, hp, hrp⟩
      rcases List.mem_map.mp hp with ⟨q, hq, rfl⟩
      exact hw q hq r hrp
    simp only [NdarrayRdd.mean, if_pos rfl, List.map_map]
    have e2 : ((fun r => r.2) ∘ fun x : NPArray =>
        (x.rows.length, colSum a.shape.2 x.rows)) =
        fun x : NPArray => colSum a.shape.2 x.rows := rfl
    have e1 : ((fun r => r.1) ∘ fun x : NPArray =>
        (x.rows.length, colSum a.shape.2 x.rows)) =
        fun x : NPArray => x.rows.length := rfl
    rw [e1, e2, hfold, htot]
    simp [hmlen]
  · intro ax h0 h1
    rw [NdarrayRdd.mean, if_neg h0, if_neg h1]

theorem mean_axis0_correct_witness :
    scenarioArr.mean (some 0) = UResult.ok
      { rdd := [[2, 1/3, 1, 13/3, 4]], shape := 5, chunks := 5,
        partition_row_counts := [5] } ∧
    scenarioArr.mean none = UResult.notImplemented := by
  constructor
  · rw [(mean_axis0_correct scenarioArr (by decide)).1]
    simp only [scenarioArr, NdarrayRdd.asndarray, colSum, vecAdd,
      List.map_cons, List.map_nil, List.flatten, List.append_nil,
      List.foldl_cons, List.foldl_nil, List.zipWith_cons_cons,
      List.zipWith_nil_right, List.replicate, List.length_cons,
      List.length_nil, UResult.ok.injEq, Ndarray1D.mk.injEq]
    norm_num [vecAdd, List.zipWith_cons_cons]
  · exact (mean_axis0_correct scenarioArr (by decide)).2 none
      (by decide) (by decide)

/-! ## Theorems: boolean row subsetting -/

theorem copartition_length {α : Type} :
    ∀ (counts : List Nat) (xs : List α),
      (copartition xs counts).length = counts.length := by
  intro counts
  induction counts with
  | nil => intro xs; rfl
  | cons n rest ih => intro xs; simp [copartition, ih]

theorem copartition_get? {α : Type} :
    ∀ (counts : List Nat) (xs : List α) (i : Nat), i < counts.length →
      (copartition xs counts).get? i =
        some ((xs.drop ((counts.take i).sum)).take (counts.getD i 0)) := by
  intro counts
  induction counts with
  | nil => intro xs i h; simp at h
  | cons n rest ih =>
      intro xs i h
      cases i with
      | zero => simp [copartition]
      | succ i =>
          have hi : i < rest.length := by simpa using h
          have := ih (xs.drop n) i hi
          simp only [copartition, List.get?_cons_succ, this, List.take_succ_cons,
            List.sum_cons, List.getD_cons_succ, List.drop_drop]

theorem countTrue_append (m1 m2 : List Bool) :
    countTrue (m1 ++ m2) = countTrue m1 + countTrue m2 := by
  simp [countTrue, List.filter_append]

theorem copartition_countTrue_sum :
    ∀ (counts : List Nat) (mask : List Bool), mask.length = counts.sum →
      (partition_row_counts_of (copartition mask counts)).sum = countTrue mask := by
  intro counts
  induction counts with
  | nil =>
      intro mask h
      simp at h
      simp [copartition, partition_row_counts_of, h, countTrue]
  | cons n rest ih =>
      intro mask h
      have hrec := ih (mask.drop n) (by simp [h])
      simp only [partition_row_counts_of] at hrec ⊢
      simp only [copartition, List.map_cons, List.sum_cons, hrec]
      rw [← countTrue_append, List.take_append_drop]

theorem selectRows_nil_mask (p : List Row) : selectRows p [] = [] := by
  cases p <;> simp [selectRows]

theorem selectRows_cons (r : Row) (p : List Row) (b : Bool) (m : List Bool) :
    selectRows (r :: p) (b :: m) = (if b then [r] else []) ++ selectRows p m := by
  cases b <;> simp [selectRows, List.filter_cons]

theorem selectRows_append (p q : List Row) (m : List Bool) :
    selectRows (p ++ q) m =
      selectRows p (m.take p.length) ++ selectRows q (m.drop p.length) := by
  induction p generalizing m with
  | nil => simp [selectRows]
  | cons r p ih =>
      cases m with
      | nil => simp [selectRows_nil_mask]
      | cons b m =>
          simp only [List.cons_append, selectRows_cons, List.length_cons,
            List.take_succ_cons, List.drop_succ_cons, ih, List.append_assoc]

theorem selectRows_flatten :
    ∀ (parts : List (List Row)) (counts : List Nat) (mask : List Bool),
      parts.map List.length = counts →
      ((parts.zip (copartition mask counts)).map
          (fun p => selectRows p.1 p.2)).flatten =
        selectRows parts.flatten mask := by
  intro parts
  induction parts with
  | nil =>
      intro counts mask h
      simp [selectRows]
  | cons p parts ih =>
      intro counts mask h
      cases counts with
      | nil => simp at h
      | cons n rest =>
          have hn : p.length = n := by
            have := congrArg (fun l => l.get? 0) h
            simpa using this
          have hrest : parts.map List.length = rest := by
            have := congrArg List.tail h
            simpa using this
          simp only [copartition, List.zip_cons_cons, List.map_cons,
            List.flatten_cons]
          rw [ih rest (mask.drop n) hrest, selectRows_append, hn]

/-- C5: For a boolean row mask of length `shape[0]`, row indexing
(`_row_subset`) returns a new distributed array whose `partition_row_counts`
has the same number of entries as before and whose `i`-th entry equals the
number of selected rows falling within partition `i` of the original layout
(so partitions with zero selected rows keep a zero entry, in order), whose
`shape[0]` is the total number of selected rows (the sum of those counts),
and whose materialized values are the selected rows of the original array,
in order. -/
theorem row_subset_boolean (a : NdarrayRdd) (mask : List Bool)
    (hlen : a.rdd.map (fun p => p.rows.length) = a.partition_row_counts)
    (hsum : a.partition_row_counts.sum = a.shape.1)
    (hmask : mask.length = a.shape.1) :
    ((a.row_subset mask).partition_row_counts.length =
        a.partition_row_counts.length) ∧
    (∀ i, i < a.partition_row_counts.length →
      (a.row_subset mask).partition_row_counts.get? i =
        some (countTrue ((mask.drop ((a.partition_row_counts.take i).sum)).take
          (a.partition_row_counts.getD i 0)))) ∧
    ((a.row_subset mask).shape.1 = countTrue mask) ∧
    ((a.row_subset mask).shape.2 = a.shape.2) ∧
    ((a.row_subset mask).asndarray = selectRows a.asndarray mask) := by
  refine ⟨?_, ?_, ?_, rfl, ?_⟩
  · simp [NdarrayRdd.row_subset, partition_row_counts_of, copartition_length]
  · intro i hi
    simp only [NdarrayRdd.row_subset, partition_row_counts_of]
    rw [List.get?_map, copartition_get? a.partition_row_counts mask i hi]
    rfl
  · simp only [NdarrayRdd.row_subset]
    exact copartition_countTrue_sum a.partition_row_counts mask
      (by rw [hmask, hsum])
  · simp only [NdarrayRdd.row_subset, NdarrayRdd.asndarray, List.map_map]
    have hzipmap : ∀ (l : List NPArray) (l' : List (List Bool)),
        (l.map NPArray.rows).zip l' =
          (l.zip l').map (fun p => (p.1.rows, p.2)) := by
      intro l
      induction l with
      | nil => intro l'; rfl
      | cons x l ihl =>
          intro l'
          cases l' with
          | nil => rfl
          | cons y l' => simp [ihl]
    have hzip : (a.rdd.zip (copartition mask a.partition_row_counts)).map
        ((fun p : NPArray × List Bool => selectRows p.1.rows p.2)) =
        ((a.rdd.map NPArray.rows).zip
          (copartition mask a.partition_row_counts)).map
          (fun p => selectRows p.1 p.2) := by
      rw [hzipmap, List.map_map]
      rfl
    have : (a.rdd.map NPArray.rows).map List.length =
        a.partition_row_counts := by
      rw [List.map_map]; exact hlen
    calc ((a.rdd.zip (copartition mask a.partition_row_counts)).map
          (fun p => NPArray.rows ((fun q : NPArray × List Bool =>
            (⟨q.1.dtype, selectRows q.1.rows q.2⟩ : NPArray)) p))).flatten
    _ = ((a.rdd.zip (copartition mask a.partition_row_counts)).map
          (fun p : NPArray × List Bool => selectRows p.1.rows p.2)).flatten := rfl
    _ = (((a.rdd.map NPArray.rows).zip
          (copartition mask a.partition_row_counts)).map
          (fun p => selectRows p.1 p.2)).flatten := by rw [hzip]
    _ = selectRows (a.rdd.map NPArray.rows).flatten mask :=
        selectRows_flatten (a.rdd.map NPArray.rows) a.partition_row_counts mask this

theorem row_subset_boolean_witness :
    (scenarioArr.row_subset [true, false, true]).shape.1 =
        countTrue [true, false, true] ∧
    (scenarioArr.row_subset [true, false, true]).asndarray =
        selectRows scenarioArr.asndarray [true, false, true] ∧
    (scenarioArr.row_subset [true, false, true]).partition_row_counts.get? 1 =
        some (countTrue ((([true, false, true] : List Bool).drop
          ((([2, 1] : List Nat).take 1).sum)).take
          (([2, 1] : List Nat).getD 1 0))) := by
  have h := row_subset_boolean scenarioArr [true, false, true]
    (by decide) (by decide) (by decide)
  exact ⟨h.2.2.1, h.2.2.2.2, h.2.1 1 (by decide)⟩

/-! ## Theorems: repartitioning -/

theorem joinRows_cons (q : Piece) (ps : List Piece) :
    joinRows (q :: ps) = q.2.2 ++ joinRows ps := by
  simp [joinRows]

theorem joinRows_append (ps qs : List Piece) :
    joinRows (ps ++ qs) = joinRows ps ++ joinRows qs := by
  simp [joinRows]

theorem overlayAt_nil_rows (base : List Row) (s : Nat) :
    overlayAt base s [] = base := by
  simp [overlayAt, List.take_append_drop]

theorem overlayAt_nil_base (s : Nat) (r : List Row) : overlayAt [] s r = r := by
  simp [overlayAt]

theorem overlayAt_cons (b : Row) (bs : List Row) (s : Nat) (r : List Row) :
    overlayAt (b :: bs) (s + 1) r = b :: overlayAt bs s r := by
  have h : s + 1 + r.length = (s + r.length) + 1 := by omega
  simp [overlayAt, h]

theorem overlayAt_zero (base : List Row) (r : List Row) :
    overlayAt base 0 r = r ++ base.drop r.length := by
  simp [overlayAt]

theorem overlayAt_compose (s : Nat) :
    ∀ (base : List Row) (r1 r2 : List Row),
      overlayAt (overlayAt base s r1) (s + r1.length) r2 =
        overlayAt base s (r1 ++ r2) := by
  induction s with
  | zero =>
      intro base r1 r2
      rw [overlayAt_zero, overlayAt_zero, Nat.zero_add]
      rw [overlayAt]
      rw [List.take_append_eq_append_take, List.take_of_length_le (le_refl _),
        Nat.sub_self, List.take_zero, List.append_nil]
      rw [List.drop_append_eq_append_drop,
        List.drop_of_length_le (by omega : r1.length ≤ r1.length + r2.length)]
      have h1 : r1.length + r2.length - r1.length = r2.length := by omega
      rw [h1, List.nil_append, List.drop_drop]
      have h2 : (r1 ++ r2).length = r1.length + r2.length := by
        rw [List.length_append]
      rw [h2, List.append_assoc]
  | succ s ih =>
      intro base r1 r2
      cases base with
      | nil =>
          rw [overlayAt_nil_base, overlayAt_nil_base]
          rw [overlayAt]
          rw [List.take_of_length_le (by omega : r1.length ≤ s + 1 + r1.length),
            List.drop_of_length_le
              (by omega : r1.length ≤ s + 1 + r1.length + r2.length)]
          rw [List.append_nil]
      | cons b bs =>
          rw [overlayAt_cons]
          have h : s + 1 + r1.length = (s + r1.length) + 1 := by omega
          rw [h, overlayAt_cons, ih bs r1 r2, ← overlayAt_cons]

theorem chain_key_ge (c : Nat) :
    ∀ (ps : List Piece) (g : Nat), ChainFrom c g ps → ∀ p ∈ ps, g / c ≤ p.1 := by
  intro ps
  induction ps with
  | nil => intro g _ p hp; simp at hp
  | cons q ps ih =>
      intro g hch p hp
      obtain ⟨j, ⟨s, e⟩, rs⟩ := q
      simp only [ChainFrom] at hch
      obtain ⟨hj, _, _, _, _, hch'⟩ := hch
      rcases List.mem_cons.mp hp with rfl | hp'
      · simp [hj]
      · exact le_trans (Nat.div_le_div_right (Nat.le_add_right g rs.length))
          (ih (g + rs.length) hch' p hp')

theorem extract_chunkEntriesAux_chain (c : Nat) (hc : 0 < c) :
    ∀ (fuel rows g : Nat) (part : List Row), rows ≤ fuel →
      part.length = rows →
      ChainFrom c g (extract_partial_chunks (chunkEntriesAux c fuel g rows) part) ∧
      joinRows (extract_partial_chunks (chunkEntriesAux c fuel g rows) part)
        = part := by
  intro fuel
  induction fuel with
  | zero =>
      intro rows g part hr hp
      have h0 : rows = 0 := Nat.le_zero.mp hr
      subst h0
      have hpnil : part = [] := List.length_eq_zero.mp hp
      subst hpnil
      simp [chunkEntriesAux, extract_partial_chunks, ChainFrom, joinRows]
  | succ fuel ih =>
      intro rows g part hr hp
      by_cases h0 : rows = 0
      · subst h0
        have hpnil : part = [] := List.length_eq_zero.mp hp
        subst hpnil
        simp [chunkEntriesAux, extract_partial_chunks, ChainFrom, joinRows]
      · have hmod : g % c < c := Nat.mod_lt g hc
        have hcond : ¬(rows = 0 ∨ c = 0) := by omega
        rw [chunkEntriesAux, if_neg hcond]
        have ht1 : 1 ≤ min rows (c - g % c) := by omega
        have htr : min rows (c - g % c) ≤ rows := Nat.min_le_left _ _
        simp only [extract_partial_chunks]
        have hee : g % c + min rows (c - g % c) - g % c = min rows (c - g % c) := by
          omega
        rw [hee]
        have htake : (part.take (min rows (c - g % c))).length
            = min rows (c - g % c) := by
          rw [List.length_take]; omega
        have hrec := ih (rows - min rows (c - g % c)) (g + min rows (c - g % c))
          (part.drop (min rows (c - g % c))) (by omega)
          (by rw [List.length_drop]; omega)
        constructor
        · refine ⟨rfl, rfl, by rw [htake], ?_, ?_, ?_⟩
          · intro hcon
            rw [hcon] at htake
            simp at htake
            omega
          · omega
          · rw [htake]; exact hrec.1
        · rw [joinRows_cons, hrec.2]
          exact List.take_append_drop _ _

theorem chain_append (c : Nat) :
    ∀ (ps qs : List Piece) (g : Nat), ChainFrom c g ps →
      ChainFrom c (g + (joinRows ps).length) qs →
      ChainFrom c g (ps ++ qs) := by
  intro ps
  induction ps with
  | nil =>
      intro qs g _ hq
      simpa [joinRows] using hq
  | cons q ps ih =>
      intro qs g hch hq
      obtain ⟨j, ⟨s, e⟩, rs⟩ := q
      simp only [ChainFrom] at hch
      obtain ⟨hj, hs, he, hner, hec, hch'⟩ := hch
      simp only [List.cons_append, ChainFrom]
      refine ⟨hj, hs, he, hner, hec, ?_⟩
      refine ih qs (g + rs.length) hch' ?_
      have harr : g + rs.length + (joinRows ps).length
          = g + (joinRows ((j, (s, e), rs) :: ps)).length := by
        rw [joinRows_cons]
        simp
        omega
      rw [harr]
      exact hq

theorem chain_boundaries (c : Nat) (hc : 0 < c) :
    ∀ (counts : List Nat) (parts : List (List Row)) (g : Nat),
      parts.map List.length = counts →
      ChainFrom c g (((boundariesFrom c g counts).zip parts).flatMap
        (fun pr => extract_partial_chunks pr.1 pr.2)) ∧
      joinRows (((boundariesFrom c g counts).zip parts).flatMap
        (fun pr => extract_partial_chunks pr.1 pr.2)) = parts.flatten := by
  intro counts
  induction counts with
  | nil =>
      intro parts g h
      have hparts : parts = [] := by
        cases parts with
        | nil => rfl
        | cons p ps => simp at h
      subst hparts
      simp [boundariesFrom, ChainFrom, joinRows]
  | cons n rest ih =>
      intro parts g h
      cases parts with
      | nil => simp at h
      | cons p parts' =>
          have hn : p.length = n := by
            have := congrArg (fun l => l.get? 0) h
            simpa using this
          have hrest : parts'.map List.length = rest := by
            have := congrArg List.tail h
            simpa using this
          simp only [boundariesFrom, List.zip_cons_cons, List.flatMap_cons,
            chunkEntries]
          have hhead := extract_chunkEntriesAux_chain c hc n n g p (le_refl n) hn
          have htail := ih parts' (g + n) hrest
          constructor
          · refine chain_append c _ _ g hhead.1 ?_
            rw [hhead.2, hn]
            exact htail.1
          · rw [joinRows_append, hhead.2, htail.2, List.flatten_cons]

theorem chain_filter_join (c : Nat) (hc : 0 < c) :
    ∀ (ps : List Piece) (g : Nat), ChainFrom c g ps → ∀ j : Nat,
      joinRows (ps.filter (fun p => p.1 = j)) =
        ((joinRows ps).drop (max (j * c) g - g)).take
          (min ((j + 1) * c) (g + (joinRows ps).length) - max (j * c) g) := by
  intro ps
  induction ps with
  | nil => intro g _ j; simp [joinRows]
  | cons q ps ih =>
      intro g hch j
      obtain ⟨j0, ⟨s, e⟩, rs⟩ := q
      obtain ⟨hj0, hs, he, hner, hec, hch'⟩ := hch
      have ht1 : 1 ≤ rs.length := List.length_pos.mpr hner
      have hg : g = j0 * c + s := by
        have hdm := Nat.div_add_mod g c
        rw [hj0, hs, Nat.mul_comm]
        omega
      have hsc : s < c := by rw [hs]; exact Nat.mod_lt g hc
      have hstc : s + rs.length ≤ c := by omega
      have hsucc : (j + 1) * c = j * c + c := by rw [Nat.succ_mul]
      have hIH := ih (g + rs.length) hch' j
      rcases Nat.lt_trichotomy j j0 with hlt | heq | hgt
      · have hmle : (j + 1) * c ≤ j0 * c := Nat.mul_le_mul_right c hlt
        rw [List.filter_cons_of_neg (by simp; omega), hIH]
        simp only [joinRows_cons, List.length_append]
        have hA : min ((j + 1) * c) (g + rs.length + (joinRows ps).length)
            - max (j * c) (g + rs.length) = 0 := by omega
        have hB : min ((j + 1) * c) (g + (rs.length + (joinRows ps).length))
            - max (j * c) g = 0 := by omega
        rw [hA, hB, List.take_zero, List.take_zero]
      · subst heq
        rw [List.filter_cons_of_pos (by simp)]
        simp only [joinRows_cons, List.length_append]
        rw [hIH]
        have hmaxg : max (j * c) g = g := by omega
        have hmaxg' : max (j * c) (g + rs.length) = g + rs.length := by omega
        rw [hmaxg, hmaxg', Nat.sub_self, Nat.sub_self, List.drop_zero,
          List.drop_zero]
        have hrsB : rs.length ≤
            min ((j + 1) * c) (g + (rs.length + (joinRows ps).length)) - g := by
          omega
        have hcount : min ((j + 1) * c) (g + (rs.length + (joinRows ps).length))
              - g - rs.length
            = min ((j + 1) * c) (g + rs.length + (joinRows ps).length)
              - (g + rs.length) := by
          omega
        rw [List.take_append_eq_append_take, List.take_of_length_le hrsB, hcount]
      · have hmge : j0 * c + c ≤ j * c := by
          have h := Nat.mul_le_mul_right c hgt
          rw [Nat.succ_mul] at h
          exact h
        rw [List.filter_cons_of_neg (by simp; omega), hIH]
        simp only [joinRows_cons, List.length_append]
        have hmax1 : max (j * c) (g + rs.length) = j * c := by omega
        have hmax2 : max (j * c) g = j * c := by omega
        rw [hmax1, hmax2, List.drop_append_eq_append_drop,
          List.drop_of_length_le (by omega : rs.length ≤ j * c - g),
          List.nil_append]
        have hx : j * c - g - rs.length = j * c - (g + rs.length) := by omega
        have hy : min ((j + 1) * c) (g + (rs.length + (joinRows ps).length))
            = min ((j + 1) * c) (g + rs.length + (joinRows ps).length) := by
          omega
        rw [hx, hy]

theorem chain_filter_write (c : Nat) (hc : 0 < c) :
    ∀ (ps : List Piece) (g : Nat), ChainFrom c g ps →
      ∀ (j : Nat) (base : List Row),
      ((ps.filter (fun p => p.1 = j)).map (fun p => p.2)).foldl
          (fun acc pr => writeSlice acc pr.1.1 pr.1.2 pr.2) base =
        overlayAt base (max (j * c) g - j * c)
          (joinRows (ps.filter (fun p => p.1 = j))) := by
  intro ps
  induction ps with
  | nil =>
      intro g _ j base
      simp [joinRows, overlayAt_nil_rows]
  | cons q ps ih =>
      intro g hch j base
      obtain ⟨j0, ⟨s, e⟩, rs⟩ := q
      obtain ⟨hj0, hs, he, hner, hec, hch'⟩ := hch
      have ht1 : 1 ≤ rs.length := List.length_pos.mpr hner
      have hg : g = j0 * c + s := by
        have hdm := Nat.div_add_mod g c
        rw [hj0, hs, Nat.mul_comm]
        omega
      have hsc : s < c := by rw [hs]; exact Nat.mod_lt g hc
      have hstc : s + rs.length ≤ c := by omega
      have hsucc : (j + 1) * c = j * c + c := by rw [Nat.succ_mul]
      rcases Nat.lt_trichotomy j j0 with hlt | heq | hgt
      · have hmle : (j + 1) * c ≤ j0 * c := Nat.mul_le_mul_right c hlt
        rw [List.filter_cons_of_neg (by simp; omega)]
        rw [ih (g + rs.length) hch' j base]
        have hjoin : joinRows (ps.filter (fun p => p.1 = j)) = [] := by
          rw [chain_filter_join c hc ps (g + rs.length) hch' j]
          have h0 : min ((j + 1) * c) (g + rs.length + (joinRows ps).length)
              - max (j * c) (g + rs.length) = 0 := by omega
          rw [h0, List.take_zero]
        rw [hjoin, overlayAt_nil_rows, overlayAt_nil_rows]
      · subst heq
        rw [List.filter_cons_of_pos (by simp)]
        simp only [List.map_cons, List.foldl_cons]
        have hwr : writeSlice base s e rs = overlayAt base s rs := by
          rw [writeSlice, overlayAt, he]
        rw [hwr, ih (g + rs.length) hch' j (overlayAt base s rs)]
        have hmax' : max (j * c) (g + rs.length) - j * c = s + rs.length := by
          omega
        have hmax : max (j * c) g - j * c = s := by omega
        rw [hmax', hmax, overlayAt_compose]
        simp only [joinRows_cons]
      · have hmge : j0 * c + c ≤ j * c := by
          have h := Nat.mul_le_mul_right c hgt
          rw [Nat.succ_mul] at h
          exact h
        rw [List.filter_cons_of_neg (by simp; omega)]
        rw [ih (g + rs.length) hch' j base]
        have heq2 : max (j * c) (g + rs.length) = max (j * c) g := by omega
        rw [heq2]

theorem ceil_div_eq (c T : Nat) (hc : 0 < c) :
    (T + c - 1) / c = T / c + (if T % c = 0 then 0 else 1) := by
  have hdm := Nat.div_add_mod T c
  have hmod : T % c < c := Nat.mod_lt T hc
  by_cases h : T % c = 0
  · have he : T + c - 1 = c * (T / c) + (c - 1) := by omega
    rw [he, Nat.mul_add_div hc,
      Nat.div_eq_of_lt (show c - 1 < c by omega)]
    simp [h]
  · have he : T + c - 1 = c * (T / c + 1) + (T % c - 1) := by
      have hm : c * (T / c + 1) = c * (T / c) + c := by ring
      omega
    rw [he, Nat.mul_add_div hc,
      Nat.div_eq_of_lt (show T % c - 1 < c by omega)]
    simp [h]

theorem chunk_len_core (c q r j T : Nat) (hc : 0 < c) (hr : r < c)
    (hT : T = q * c + r)
    (hj : j < q + (if r = 0 then 0 else 1)) :
    j * c < T ∧
    (min ((j + 1) * c) T - j * c
      = if j = q + (if r = 0 then 0 else 1) - 1 ∧ r ≠ 0 then r else c) := by
  have hsucc : (j + 1) * c = j * c + c := by rw [Nat.succ_mul]
  by_cases hr0 : r = 0
  · subst hr0
    rw [if_pos rfl] at hj
    have h1 : j + 1 ≤ q := by omega
    have h2 : (j + 1) * c ≤ q * c := Nat.mul_le_mul_right c h1
    refine ⟨by omega, ?_⟩
    rw [if_neg (by simp)]
    omega
  · rw [if_neg hr0] at hj ⊢
    by_cases hlast : j = q
    · subst hlast
      refine ⟨by omega, ?_⟩
      rw [if_pos ⟨by omega, hr0⟩]
      omega
    · have h5 : j + 1 ≤ q := by omega
      have h6 : (j + 1) * c ≤ q * c := Nat.mul_le_mul_right c h5
      refine ⟨by omega, ?_⟩
      rw [if_neg (by rintro ⟨hj1, -⟩; omega)]
      omega

theorem chunk_len_facts (c T j : Nat) (hc : 0 < c)
    (hj : j < (T + c - 1) / c) :
    j * c < T ∧
    (min ((j + 1) * c) T - j * c
      = if j = (T + c - 1) / c - 1 ∧ T % c ≠ 0 then T % c else c) := by
  rw [ceil_div_eq c T hc] at hj ⊢
  exact chunk_len_core c (T / c) (T % c) j T hc (Nat.mod_lt T hc)
    (by rw [Nat.mul_comm]; exact (Nat.div_add_mod T c).symm) hj

theorem flatMap_singleton_eq_map {α β : Type} (l : List α) (f : α → List β)
    (g : α → β) (h : ∀ x ∈ l, f x = [g x]) : l.flatMap f = l.map g := by
  induction l with
  | nil => rfl
  | cons x l ih =>
      rw [List.flatMap_cons, h x (by simp),
        ih (fun y hy => h y (by simp [hy])), List.map_cons]
      rfl

/-- The central description of `_repartition_chunks`: with a consistent
layout (partition `i` holds `partition_row_counts[i]` rows) and a positive
new row-chunk size, the output RDD has exactly `ceil(T / c)` partitions
(`T` the total row count), and new chunk `j` is a `float64` array holding
precisely rows `[j*c, min((j+1)*c, T))` of the materialized input. -/
theorem repartition_rdd_eq (a : NdarrayRdd) (ch : Nat × Nat) (hc : 0 < ch.1)
    (hlen : a.rdd.map (fun p => p.rows.length) = a.partition_row_counts) :
    (a.repartition_chunks ch).rdd =
      (List.range ((a.partition_row_counts.sum + ch.1 - 1) / ch.1)).map
        (fun j => (⟨DType.float64,
          ((a.asndarray.drop (j * ch.1)).take
            (min ((j + 1) * ch.1) a.partition_row_counts.sum - j * ch.1))⟩ :
            NPArray)) := by
  have hparts : (a.rdd.map NPArray.rows).map List.length
      = a.partition_row_counts := by
    rw [List.map_map]
    exact hlen
  have hchain := chain_boundaries ch.1 hc a.partition_row_counts
    (a.rdd.map NPArray.rows) 0 hparts
  have hAT : a.asndarray.length = a.partition_row_counts.sum := by
    rw [NdarrayRdd.asndarray, List.length_flatten, hparts]
  simp only [NdarrayRdd.repartition_chunks, calculate_partition_boundaries]
  refine flatMap_singleton_eq_map _ _ _ ?_
  intro j hjmem
  have hjN : j < (a.partition_row_counts.sum + ch.1 - 1) / ch.1 :=
    List.mem_range.mp hjmem
  obtain ⟨hjT, hLval⟩ :=
    chunk_len_facts ch.1 a.partition_row_counts.sum j hc hjN
  have hjoinf := chain_filter_join ch.1 hc _ 0 hchain.1 j
  rw [hchain.2] at hjoinf
  have hmax0 : max (j * ch.1) 0 = j * ch.1 := by omega
  rw [hmax0, Nat.sub_zero, Nat.zero_add] at hjoinf
  have hflatA : (a.rdd.map NPArray.rows).flatten = a.asndarray := rfl
  rw [hflatA, hAT] at hjoinf
  have hLlen : (joinRows ((((boundariesFrom ch.1 0 a.partition_row_counts).zip
        (a.rdd.map NPArray.rows)).flatMap
        (fun pr => extract_partial_chunks pr.1 pr.2)).filter
        (fun p => p.1 = j))).length
      = min ((j + 1) * ch.1) a.partition_row_counts.sum - j * ch.1 := by
    rw [hjoinf, List.length_take, List.length_drop, hAT]
    omega
  have hLpos : 0 < min ((j + 1) * ch.1) a.partition_row_counts.sum
      - j * ch.1 := by
    rw [hLval]
    by_cases hcond : j = (a.partition_row_counts.sum + ch.1 - 1) / ch.1 - 1
        ∧ a.partition_row_counts.sum % ch.1 ≠ 0
    · rw [if_pos hcond]
      omega
    · rw [if_neg hcond]
      omega
  have hfilter_ne : ((((boundariesFrom ch.1 0 a.partition_row_counts).zip
        (a.rdd.map NPArray.rows)).flatMap
        (fun pr => extract_partial_chunks pr.1 pr.2)).filter
        (fun p => p.1 = j)) ≠ [] := by
    intro hcon
    rw [hcon] at hLlen
    simp [joinRows] at hLlen
    omega
  have hvals_ne : ¬((((boundariesFrom ch.1 0 a.partition_row_counts).zip
        (a.rdd.map NPArray.rows)).flatMap
        (fun pr => extract_partial_chunks pr.1 pr.2)).filter
        (fun p => p.1 = j)).map (fun p => p.2) = [] := by
    simp only [ne_eq, List.map_eq_nil_iff]
    exact hfilter_ne
  rw [if_neg hvals_ne]
  have hwrite := chain_filter_write ch.1 hc _ 0 hchain.1 j
  simp only [combine_partial_chunks]
  congr 1
  congr 1
  rw [hwrite, hmax0, Nat.sub_self, hjoinf, overlayAt_zero]
  have hportlen : ((a.asndarray.drop (j * ch.1)).take
      (min ((j + 1) * ch.1) a.partition_row_counts.sum - j * ch.1)).length
      = min ((j + 1) * ch.1) a.partition_row_counts.sum - j * ch.1 := by
    rw [List.length_take, List.length_drop, hAT]
    omega
  have harr0len : (if j = (a.partition_row_counts.sum + ch.1 - 1) / ch.1 - 1
        ∧ a.partition_row_counts.sum % ch.1 ≠ 0
      then zerosRows (a.partition_row_counts.sum % ch.1) ch.2
      else zerosRows ch.1 ch.2).length
      = min ((j + 1) * ch.1) a.partition_row_counts.sum - j * ch.1 := by
    by_cases hcond : j = (a.partition_row_counts.sum + ch.1 - 1) / ch.1 - 1
        ∧ a.partition_row_counts.sum % ch.1 ≠ 0
    · rw [if_pos hcond, hLval, if_pos hcond]
      simp [zerosRows]
    · rw [if_neg hcond, hLval, if_neg hcond]
      simp [zerosRows]
  rw [hportlen, List.drop_of_length_le (le_of_eq harr0len), List.append_nil]

theorem flatten_range_take (c : Nat) (A : List Row) :
    ∀ n : Nat,
      ((List.range n).map (fun j =>
        (A.drop (j * c)).take (min ((j + 1) * c) A.length - j * c))).flatten
      = A.take (min (n * c) A.length) := by
  intro n
  induction n with
  | zero => simp
  | succ n ih =>
      rw [List.range_succ, List.map_append, List.flatten_append, ih]
      simp only [List.map_cons, List.map_nil, List.flatten_cons,
        List.flatten_nil, List.append_nil]
      have hsucc : (n + 1) * c = n * c + c := by rw [Nat.succ_mul]
      rcases le_or_lt A.length (n * c) with hcase | hcase
      · rw [List.drop_of_length_le hcase]
        simp only [List.take_nil, List.append_nil]
        have h1 : min (n * c) A.length = A.length := by omega
        have h2 : min ((n + 1) * c) A.length = A.length := by omega
        rw [h1, h2]
      · have h1 : min (n * c) A.length = n * c := by omega
        rw [h1, ← List.take_add]
        congr 1
        omega

theorem ceil_mul_ge (c T : Nat) (hc : 0 < c) :
    T ≤ ((T + c - 1) / c) * c := by
  rw [ceil_div_eq c T hc]
  have hqc : T = T / c * c + T % c := by
    rw [Nat.mul_comm]
    exact (Nat.div_add_mod T c).symm
  have hmod : T % c < c := Nat.mod_lt T hc
  by_cases hr : T % c = 0
  · rw [if_pos hr, Nat.add_zero]
    omega
  · rw [if_neg hr]
    have h : (T / c + 1) * c = T / c * c + c := by
      rw [Nat.add_mul, Nat.one_mul]
    omega

/-- C2: For a distributed array chunked at row-chunk size `c1` (its
`partition_row_counts` are those produced by chunking `shape[0]` at `c1`,
and partition `i` physically holds that many rows), materializing after
`repartition_chunks` with any positive row-chunk size `c2 = ch.1` yields
exactly the original materialized array: every row appears once, at its
original position; none is duplicated or dropped. -/
theorem repartition_roundtrip (a : NdarrayRdd) (c1 : Nat) (ch : Nat × Nat)
    (hc1 : 0 < c1) (hc : 0 < ch.1)
    (hcounts : a.partition_row_counts = chunkCounts c1 a.shape.1)
    (hlen : a.rdd.map (fun p => p.rows.length) = a.partition_row_counts) :
    (a.repartition_chunks ch).asndarray = a.asndarray := by
  have hAT : a.asndarray.length = a.partition_row_counts.sum := by
    rw [NdarrayRdd.asndarray, List.length_flatten, List.map_map]
    exact congrArg List.sum hlen
  show ((a.repartition_chunks ch).rdd.map NPArray.rows).flatten = a.asndarray
  rw [repartition_rdd_eq a ch hc hlen, List.map_map]
  have hfun : (NPArray.rows ∘ fun j => (⟨DType.float64,
      ((a.asndarray.drop (j * ch.1)).take
        (min ((j + 1) * ch.1) a.partition_row_counts.sum - j * ch.1))⟩ :
        NPArray)) = fun j => ((a.asndarray.drop (j * ch.1)).take
        (min ((j + 1) * ch.1) a.partition_row_counts.sum - j * ch.1)) := rfl
  rw [hfun, ← hAT, flatten_range_take ch.1 a.asndarray]
  have hge := ceil_mul_ge ch.1 a.asndarray.length hc
  have hmin : min (((a.asndarray.length + ch.1 - 1) / ch.1) * ch.1)
      a.asndarray.length = a.asndarray.length := by omega
  rw [hmin, List.take_length]

theorem repartition_roundtrip_witness :
    (scenarioArr.repartition_chunks (3, 5)).asndarray = scenarioArr.asndarray :=
  repartition_roundtrip scenarioArr 2 (3, 5) (by decide) (by decide)
    (by decide) (by decide)

/-- C3: Repartitioning at row-chunk size `c = ch.1` produces
`ceil(T / c)` new partitions (`T = shape[0]` the total row count); every new
partition physically holds exactly `c` rows except the final one, which
holds `T % c` rows if `T % c` is non-zero and `c` rows otherwise; and the
new `partition_row_counts` sum to `T`, preserving the data-model invariant
`sum(partition_row_counts) == shape[0]`. -/
theorem repartition_partition_sizes (a : NdarrayRdd) (ch : Nat × Nat)
    (hc : 0 < ch.1)
    (hlen : a.rdd.map (fun p => p.rows.length) = a.partition_row_counts)
    (hsum : a.partition_row_counts.sum = a.shape.1) :
    ((a.repartition_chunks ch).rdd.length = (a.shape.1 + ch.1 - 1) / ch.1) ∧
    (∀ j, j < (a.repartition_chunks ch).rdd.length →
      ((a.repartition_chunks ch).rdd.get? j).map (fun p => p.rows.length) =
        some (if j = (a.shape.1 + ch.1 - 1) / ch.1 - 1
            ∧ a.shape.1 % ch.1 ≠ 0
          then a.shape.1 % ch.1 else ch.1)) ∧
    ((a.repartition_chunks ch).partition_row_counts.sum = a.shape.1) := by
  have hAT : a.asndarray.length = a.partition_row_counts.sum := by
    rw [NdarrayRdd.asndarray, List.length_flatten, List.map_map]
    exact congrArg List.sum hlen
  have hrdd := repartition_rdd_eq a ch hc hlen
  refine ⟨?_, ?_, ?_⟩
  · rw [hrdd, List.length_map, List.length_range, hsum]
  · intro j hj
    rw [hrdd, List.length_map, List.length_range, hsum] at hj
    rw [hrdd, List.get?_eq_getElem?, List.getElem?_map,
      List.getElem?_range (by rw [hsum]; exact hj)]
    obtain ⟨hjT, hLval⟩ := chunk_len_facts ch.1 a.partition_row_counts.sum j hc
      (by rw [hsum]; exact hj)
    simp only [Option.map_some']
    congr 1
    rw [List.length_take, List.length_drop, hAT]
    rw [hsum] at hLval hjT
    rw [hsum]
    omega
  · show (chunkCounts ch.1 a.shape.1).sum = a.shape.1
    rw [chunkCounts, List.sum_append, List.sum_replicate, smul_eq_mul,
      Nat.mul_comm]
    have hdm := Nat.div_add_mod a.shape.1 ch.1
    by_cases hr : a.shape.1 % ch.1 = 0
    · rw [if_neg (by simp [hr]), List.sum_nil]
      omega
    · rw [if_pos hr, List.sum_cons, List.sum_nil]
      omega

theorem repartition_partition_sizes_witness :
    (scenarioArr.repartition_chunks (3, 5)).rdd.length = 1 ∧
    ((scenarioArr.repartition_chunks (3, 5)).rdd.get? 0).map
      (fun p => p.rows.length) = some 3 ∧
    (scenarioArr.repartition_chunks (3, 5)).partition_row_counts.sum = 3 := by
  have h := repartition_partition_sizes scenarioArr (3, 5) (by decide)
    (by decide) (by decide)
  refine ⟨?_, ?_, ?_⟩
  · rw [h.1]
    decide
  · rw [h.2.1 0 (by rw [h.1]; decide)]
    decide
  · rw [h.2.2]
    decide

/-- C10: After repartitioning, every reassembled new chunk is physically a
fresh array allocated by `np.zeros` with no element type specified, hence
the numeric default dtype `float64`, regardless of the source array's dtype
— while the resulting distributed array's reported `dtype` attribute remains
the original one.  So for a source whose dtype is not the default, the
materialized element type after repartitioning disagrees with the reported
dtype on every chunk. -/
theorem repartition_dtype_mismatch (a : NdarrayRdd) (ch : Nat × Nat)
    (hdt : a.dtype ≠ DType.float64) :
    (∀ p ∈ (a.repartition_chunks ch).rdd, p.dtype = DType.float64) ∧
    ((a.repartition_chunks ch).dtype = a.dtype) ∧
    (∀ p ∈ (a.repartition_chunks ch).rdd,
      p.dtype ≠ (a.repartition_chunks ch).dtype) := by
  have hmem : ∀ p ∈ (a.repartition_chunks ch).rdd, p.dtype = DType.float64 := by
    intro p hp
    simp only [NdarrayRdd.repartition_chunks] at hp
    rw [List.mem_flatMap] at hp
    obtain ⟨j, _, hpj⟩ := hp
    split at hpj
    · simp at hpj
    · simp only [List.mem_singleton] at hpj
      subst hpj
      rfl
  refine ⟨hmem, rfl, ?_⟩
  intro p hp
  rw [hmem p hp]
  show DType.float64 ≠ a.dtype
  exact Ne.symm hdt

theorem repartition_dtype_mismatch_witness :
    NdarrayRdd.dtype { scenarioArr with dtype := DType.int64 } ≠ DType.float64 ∧
    (({ scenarioArr with dtype := DType.int64 }).repartition_chunks
      (3, 5)).rdd.map NPArray.dtype = [DType.float64] ∧
    (({ scenarioArr with dtype := DType.int64 }).repartition_chunks
      (3, 5)).dtype = DType.int64 := by
  refine ⟨by decide, by decide, ?_⟩
  rw [(repartition_dtype_mismatch { scenarioArr with dtype := DType.int64 }
    (3, 5) (by decide)).2.1]

end Zap
